import Mathlib

/-!
Verification of the omnipath path library (crates/omnipath).

Strings are modelled as lists of Unicode scalar values (Nat).  Rust's str
type guarantees valid UTF-8, so a &str is faithfully represented by its
list of scalars; byte-level quantities (prefix lengths, split offsets)
are recovered through the UTF-8 encoding functions below.  Operations the
source performs on raw bytes are modelled on scalars whenever every byte
the source inspects is ASCII (an ASCII byte occurs in valid UTF-8 exactly
as a one-byte scalar, never inside a multi-byte encoding), and through
explicit byte offsets otherwise.  A Rust panic is modelled as none.
-/

namespace Omnipath

/-- Number of bytes in the UTF-8 encoding of scalar c (>= 0x10000 gives 4). -/
def utf8Width (c : Nat) : Nat :=
  if c < 0x80 then 1
  else if c < 0x800 then 2
  else if c < 0x10000 then 3
  else 4

/-- The UTF-8 encoding of a single scalar value.  Bit operations of the
standard encoder are written arithmetically: x &&& 0x3F is x % 64,
x >>> 6 is x / 64, and bitwise or of disjoint ranges is addition. -/
def utf8EncodeChar (c : Nat) : List Nat :=
  if c < 0x80 then [c]
  else if c < 0x800 then [0xC0 + c / 64, 0x80 + c % 64]
  else if c < 0x10000 then [0xE0 + c / 4096, 0x80 + c / 64 % 64, 0x80 + c % 64]
  else [0xF0 + c / 262144, 0x80 + c / 4096 % 64, 0x80 + c / 64 % 64, 0x80 + c % 64]

/-- UTF-8 encoding of a whole string (list of scalars). -/
def utf8Encode (cs : List Nat) : List Nat :=
  (cs.map utf8EncodeChar).flatten

/-- Byte length of the UTF-8 encoding of cs; models str::len(). -/
def utf8Len (cs : List Nat) : Nat :=
  (cs.map utf8Width).sum

/-- First byte of the UTF-8 encoding of scalar c. -/
def firstUtf8Byte (c : Nat) : Nat :=
  (utf8EncodeChar c).headD 0

/-- util.rs utf8_len: length claimed by a leading byte, via leading_ones
(0 leading ones maps to 1). -/
def utf8LenByte (b : Nat) : Nat :=
  if b < 0x80 then 1
  else if b < 0xC0 then 1
  else if b < 0xE0 then 2
  else if b < 0xF0 then 3
  else if b < 0xF8 then 4
  else if b < 0xFC then 5
  else if b < 0xFE then 6
  else if b < 0xFF then 7
  else 8

/-- util.rs bmp_utf8_to_utf16: decode the first scalar of a BMP UTF-8 byte
sequence to its UTF-16 code unit.  Masks and shifts are written
arithmetically (&&& 0b1111 is % 16, &&& 0b11111 is % 32, &&& 0b111111 is
% 64; the shifted fields are disjoint so ||| is +). -/
def bmpUtf8ToUtf16 (bytes : List Nat) : Nat :=
  let b0 := bytes.headD 0
  let b1 := (bytes.drop 1).headD 0
  let b2 := (bytes.drop 2).headD 0
  if 3 ≤ utf8LenByte b0 then (b0 % 16) * 4096 + (b1 % 64) * 64 + b2 % 64
  else if 2 ≤ utf8LenByte b0 then (b0 % 32) * 64 + b1 % 64
  else b0

/-- Models str::split_at at byte offset n on a scalar-list string: returns
the scalar lists on either side, or none when n is not on a character
boundary or past the end (Rust panics there). -/
def splitAtByteLen : List Nat → Nat → Option (List Nat × List Nat)
  | cs, 0 => some ([], cs)
  | [], _ + 1 => none
  | c :: rest, n + 1 =>
    if utf8Width c ≤ n + 1 then
      (splitAtByteLen rest (n + 1 - utf8Width c)).map (fun p => (c :: p.1, p.2))
    else none

/-- Is the scalar a Windows path separator (backslash or slash)? -/
def isSep (c : Nat) : Bool :=
  c == 0x5C || c == 0x2F

/-- kind.rs WinPathKind.  Drive codes are u16 values modelled as Nat. -/
inductive WinPathKind where
  | Drive (code : Nat)
  | Unc
  | Device
  | CurrentDirectoryRelative
  | Verbatim
  | DriveRelative (code : Nat)
  | RootRelative
deriving DecidableEq

/-- kind.rs is_verbatim_str: the first four bytes are exactly the bytes of
the verbatim marker (backslash backslash question backslash).  All four
are ASCII, so at scalar level this is a match on the first four scalars. -/
def isVerbatimList (cs : List Nat) : Bool :=
  match cs with
  | a :: b :: c :: d :: _ => a == 0x5C && b == 0x5C && c == 0x3F && d == 0x5C
  | _ => false

/-- Device arm of the ascii match in WinPathKind::from_str: two leading
separators, then a dot or question mark, then a separator (the pattern
macro expands the dot to b'.' | b'?' and / to either separator). -/
def matchDevice (cs : List Nat) : Bool :=
  match cs with
  | a :: b :: c :: d :: _ => isSep a && isSep b && (c == 0x2E || c == 0x3F) && isSep d
  | _ => false

/-- Unc arm: two leading separators. -/
def matchTwoSeps (cs : List Nat) : Bool :=
  match cs with
  | a :: b :: _ => isSep a && isSep b
  | _ => false

/-- RootRelative arm: one leading separator. -/
def matchOneSep (cs : List Nat) : Bool :=
  match cs with
  | a :: _ => isSep a
  | _ => false

/-- Drive arm: any byte, a colon, then a separator. -/
def matchDriveAbs (cs : List Nat) : Bool :=
  match cs with
  | _ :: b :: c :: _ => b == 0x3A && isSep c
  | _ => false

/-- DriveRelative arm: any byte then a colon. -/
def matchDriveRel (cs : List Nat) : Bool :=
  match cs with
  | _ :: b :: _ => b == 0x3A
  | _ => false

/-- kind.rs WinPathKind::from_str.  The branch on utf8_len of the first
byte and the ordered pattern-match arms are reproduced; the redundant
is_verbatim_str check of the source tests the same four bytes as the
pattern just before it, so a single test covers both. -/
def winFromStr (cs : List Nat) : WinPathKind :=
  match cs with
  | [] => .CurrentDirectoryRelative
  | c0 :: rest =>
    if isVerbatimList (c0 :: rest) then .Verbatim
    else
      let n := utf8LenByte (firstUtf8Byte c0)
      if 4 ≤ n then .CurrentDirectoryRelative
      else if 2 ≤ n then
        -- trim_start(bytes, n) skips exactly the first scalar's bytes,
        -- leaving the encoding of rest; the matched colon and separator
        -- are ASCII, so the byte patterns are scalar patterns on rest.
        -- The arms are the source's colon-then-separator (Drive), colon
        -- (DriveRelative) and catch-all patterns, in order.
        match rest with
        | r1 :: rtail =>
          if r1 == 0x3A then
            match rtail with
            | s :: _ =>
              if isSep s then .Drive (bmpUtf8ToUtf16 (utf8Encode (c0 :: rest)))
              else .DriveRelative (bmpUtf8ToUtf16 (utf8Encode (c0 :: rest)))
            | [] => .DriveRelative (bmpUtf8ToUtf16 (utf8Encode (c0 :: rest)))
          else .CurrentDirectoryRelative
        | [] => .CurrentDirectoryRelative
      else
        if matchDevice cs then .Device
        else if matchTwoSeps cs then .Unc
        else if matchOneSep cs then .RootRelative
        else if matchDriveAbs cs then .Drive c0
        else if matchDriveRel cs then .DriveRelative c0
        else .CurrentDirectoryRelative

/-- kind.rs WinPathKind::utf16_len. -/
def WinPathKind.utf16Len : WinPathKind → Nat
  | .Drive _ => 3
  | .Unc => 2
  | .Device => 4
  | .CurrentDirectoryRelative => 0
  | .Verbatim => 4
  | .DriveRelative _ => 2
  | .RootRelative => 1

/-- kind.rs WinPathKind::is_absolute. -/
def WinPathKind.isAbsolute : WinPathKind → Bool
  | .Drive _ => true
  | .Unc => true
  | .Device => true
  | .Verbatim => true
  | _ => false

/-- kind.rs WinPathKind::from_str_with_len: the kind together with the
byte length of the minimal prefix; Drive and DriveRelative add the UTF-8
width of the first scalar in place of one UTF-16 unit. -/
def winFromStrWithLen (cs : List Nat) : WinPathKind × Nat :=
  let kind := winFromStr cs
  let len :=
    match kind with
    | .Drive _ => kind.utf16Len - 1 + utf8LenByte (firstUtf8Byte (cs.headD 0))
    | .DriveRelative _ => kind.utf16Len - 1 + utf8LenByte (firstUtf8Byte (cs.headD 0))
    | _ => kind.utf16Len
  (kind, len)

/-- Second scan of str_unc_prefix_len: the byte index of the second
separator is the encoded length of the scalars before it (pos + n + 1 in
the source's byte iteration), or the whole byte length when missing. -/
def strUncSecond : List Nat → Nat → Option Nat → Nat
  | cs, i, some j => utf8Len (cs.take (i + 1 + j))
  | cs, _, none => utf8Len cs

/-- First scan of str_unc_prefix_len: with the first separator at element
index i, continue scanning after it; no separator at all gives the whole
byte length. -/
def strUncFirst : List Nat → Option Nat → Nat
  | cs, some i => strUncSecond cs i ((cs.drop (i + 1)).findIdx? (fun c => isSep c))
  | cs, none => utf8Len cs

/-- kind.rs str_unc_prefix_len: byte position just past the server name
and share name, i.e. the byte index of the second separator, or the whole
length when a second separator is missing.  The source iterates bytes;
separators are ASCII so the byte index of a separator is the encoded
length of the scalars before it. -/
def strUncPrefixLen (cs : List Nat) : Nat :=
  strUncFirst cs (cs.findIdx? (fun c => isSep c))

/-- kind.rs ParsedUtf8Path::from_utf8: full prefix byte length.  For Unc
the two leading separators (one byte each) are dropped and the secondary
scan extends the prefix. -/
def parsedPrefixLen (cs : List Nat) : Nat :=
  let (kind, len) := winFromStrWithLen cs
  match kind with
  | .Unc => len + strUncPrefixLen (cs.drop 2)
  | _ => len

/-- kind.rs ParsedUtf8Path::parts: split_at(prefix_len); none models the
split_at panic off a character boundary. -/
def parsedParts (cs : List Nat) : Option (List Nat × List Nat) :=
  splitAtByteLen cs (parsedPrefixLen cs)

/-- kind.rs ParsedUtf8Path::normalized_str_kind, as the scalar list held
by the returned 4-byte buffer.  For DriveRelative the buffer holds the
prefix bytes unchanged (first scalar plus the colon); for Drive the same
with the final byte forced to a backslash; Device keeps byte 2 of the
path (the dot or question mark, at scalar index 2 since the two bytes
before it are one-byte separators). -/
def normalizedStrKind (cs : List Nat) : List Nat :=
  match winFromStr cs with
  | .DriveRelative _ => cs.take 2
  | .Drive _ => cs.take 2 ++ [0x5C]
  | .Verbatim => [0x5C, 0x5C, 0x3F, 0x5C]
  | .Device => [0x5C, 0x5C, (cs.drop 2).headD 0, 0x5C]
  | .CurrentDirectoryRelative => []
  | .RootRelative => [0x5C]
  | .Unc => [0x5C, 0x5C]

/-- Split a list at every element satisfying p, keeping empty pieces;
models str::split with a multi-character pattern (an empty input yields
one empty piece, as in Rust). -/
def splitOnP (p : α → Bool) : List α → List (List α)
  | [] => [[]]
  | c :: rest =>
    if p c then [] :: splitOnP p rest
    else
      match splitOnP p rest with
      | l :: ls => (c :: l) :: ls
      | [] => [[c]]

/-- Index of the last element satisfying p; models str::rfind (the index
is in elements here, converted to bytes by the caller where needed). -/
def rfindIdx (p : α → Bool) : List α → Option Nat
  | [] => none
  | a :: rest =>
    match rfindIdx p rest with
    | some i => some (i + 1)
    | none => if p a then some 0 else none

/-- raw.rs, the trailing-dot map inside win32_ancestors: strip a single
trailing dot unless the component ends with two dots. -/
def stripOneTrailingDot (c : List Nat) : List Nat :=
  if [0x2E].isSuffixOf c ∧ ¬ [0x2E, 0x2E].isSuffixOf c then c.dropLast else c

/-- raw.rs, the two filters of win32_ancestors applied to the reversed
component list, threading the skip counter exactly as the iterator does:
empty and dot components are dropped, a dot-dot increments skip, a
normal component is dropped while skip is positive, and surviving
components get stripOneTrailingDot. -/
def win32AncestorsWalk : List (List Nat) → Nat → List (List Nat) × Nat
  | [], skip => ([], skip)
  | c :: rest, skip =>
    if c = [] ∨ c = [0x2E] then win32AncestorsWalk rest skip
    else if c = [0x2E, 0x2E] then win32AncestorsWalk rest (skip + 1)
    else if 0 < skip then win32AncestorsWalk rest (skip - 1)
    else
      let (l, s) := win32AncestorsWalk rest skip
      (stripOneTrailingDot c :: l, s)

/-- raw.rs StrPath::win32_ancestors: the emitted components in iteration
order (last path component first) together with the final skip count.  A
path ending in a separator first emits one empty component, outside the
filters. -/
def win32Ancestors (path : List Nat) : List (List Nat) × Nat :=
  let lead : List (List Nat) :=
    match path.getLast? with
    | some c => if isSep c then [[]] else []
    | none => []
  let (comps, skip) := win32AncestorsWalk ((splitOnP isSep path).reverse) 0
  (lead ++ comps, skip)

/-- Does the list end with a separator scalar? -/
def endsWithSep (l : List Nat) : Bool :=
  match l.getLast? with
  | some c => isSep c
  | none => false

/-- The split_at arm of trim_full_path: none propagates the panic, and a
successful split keeps the whole path (first argument) when the part
after the split point is a bare dot or dot-dot that is the entire path
or follows a separator, else keeps the trimmed part. -/
def trimAfterSplit : List Nat → Option (List Nat × List Nat) → Option (List Nat)
  | _, none => none
  | cs, some (trimmed, rest) =>
    if (rest = [0x2E] ∨ rest = [0x2E, 0x2E]) ∧ (trimmed = [] ∨ endsWithSep trimmed)
    then some cs else some trimmed

/-- The rfind arm of trim_full_path: no character outside the trailing
run means the input is returned unchanged; otherwise split just after
the found character, whose byte position is the encoded length of the
elements before it. -/
def trimAtIdx : List Nat → Option Nat → Option (List Nat)
  | cs, some i => trimAfterSplit cs (splitAtByteLen cs (utf8Len (cs.take i) + 1))
  | cs, none => some cs

/-- raw.rs trim_full_path.  rfind locates the start of the last character
that is neither a dot nor a space (both ASCII, so at scalar level the
predicate is on scalars while pos is the byte offset of that character);
split_at(pos + 1) panics (none) when that character is more than one byte
wide.  A trailing bare dot or dot-dot component is preserved. -/
def trimFullPath (cs : List Nat) : Option (List Nat) :=
  trimAtIdx cs (rfindIdx (fun c => !(c == 0x2E) && !(c == 0x20)) cs)

/-- raw.rs str::split_once(['\\', '/']): split at the first separator,
none when there is no separator. -/
def splitOnceSeps : List Nat → Option (List Nat × List Nat)
  | [] => none
  | c :: rest =>
    if isSep c then some ([], rest)
    else (splitOnceSeps rest).map (fun p => (c :: p.1, p.2))

/-- Leading run of n dot-dot-backslash groups pushed by the skip loop in
WinUtf8Path::clean. -/
def dotsSegments (n : Nat) : List Nat :=
  (List.replicate n ([0x2E, 0x2E, 0x5C] : List Nat)).flatten

/-- lib.rs WinUtf8Path::clean.  The StringBuilder builds the output back
to front (reverse_push prepends), so the emitted components joined in
reverse; none models the panics of parts() and trim_full_path. -/
def winClean (cs : List Nat) : Option (List Nat) :=
  let kind := winFromStr cs
  if kind = .Verbatim then some cs
  else
    match splitAtByteLen cs (parsedPrefixLen cs) with
    | none => none
    | some (pfx, path) =>
      let (comps, skip) := win32Ancestors path
      let hasPath := comps ≠ []
      let clean0 := [0x5C].intercalate comps.reverse
      let clean1 :=
        if 0 < skip ∧ kind.isAbsolute = false ∧ kind ≠ .RootRelative then
          if clean0 = [] then dotsSegments (skip - 1) ++ [0x2E, 0x2E]
          else dotsSegments skip ++ clean0
        else clean0
      let clean2 :=
        if kind = .Unc then
          let t := if hasPath then 0x5C :: clean1 else clean1
          match splitOnceSeps (pfx.drop 2) with
          | some (server, share) =>
            if share ≠ [] then server ++ [0x5C] ++ share ++ t else server ++ t
          | none => if 2 < utf8Len pfx then pfx.drop 2 ++ t else t
        else clean1
      let clean3 := normalizedStrKind cs ++ clean2
      trimFullPath clean3

/-- raw.rs StrPath::is_component_win32_safe: a component is unsafe when
it is empty, ends with a dot or a space, or contains a slash or a null. -/
def isComponentWin32Safe (c : List Nat) : Bool :=
  !(c.isEmpty || (c.getLast? == some 0x2E || c.getLast? == some 0x20)
    || (c.contains 0x2F || c.contains 0x0))

/-- raw.rs StrPath::is_win32_safe: strip one trailing backslash, split on
backslashes, and require every component to be win32-safe. -/
def isWin32Safe (cs : List Nat) : Bool :=
  let stripped := if cs.getLast? == some 0x5C then cs.dropLast else cs
  (splitOnP (fun c => c == 0x5C) stripped).all isComponentWin32Safe

/-! Generic pure-path model (pure.rs), parameterized by a separator
character.  pure.rs works on str with char patterns; every index it
computes is the position of a found separator, hence a character
boundary, so the text is modelled as a list of characters. -/

/-- pure.rs PurePathBuf::push: append a separator unless the buffer is
empty or already ends with one, then the component text. -/
def purePush (sep : Char) (b : List Char) (c : List Char) : List Char :=
  (if ¬ (b = [] ∨ b.getLast? = some sep) then b ++ [sep] else b) ++ c

/-- pure.rs PurePath::parent via Ancestors::next: none for the empty
path; otherwise the text before the last separator, or the empty path
when there is no separator. -/
def pureParent (sep : Char) (p : List Char) : Option (List Char) :=
  if p = [] then none
  else
    match rfindIdx (fun c => c == sep) p with
    | some i => some (p.take i)
    | none => some []

/-- pure.rs PurePathBuf::pop: truncate to the parent when there is one,
reporting whether anything was removed. -/
def purePop (sep : Char) (p : List Char) : Bool × List Char :=
  match pureParent sep p with
  | some par => (true, par)
  | none => (false, p)

/-- pure.rs Components iterator: the empty path yields no components;
otherwise the pieces of the text split at every separator, a trailing
separator contributing a trailing empty component. -/
def pureComponents (sep : Char) (p : List Char) : List (List Char) :=
  if p = [] then [] else splitOnP (fun c => c == sep) p

/-- pure.rs DisplayPath state: the borrowed path text and the separator
to print with. -/
structure DisplayPath where
  path : List Char
  sepChar : Char
deriving DecidableEq

/-- pure.rs PurePath::display: DisplayPath::new uses the path's own
separator. -/
def displayNew (sep : Char) (p : List Char) : DisplayPath :=
  { path := p, sepChar := sep }

/-- pure.rs DisplayPath::separator: Ok with the new separator only when
it differs from SEPARATOR and does not occur in the text; otherwise Err
with the unchanged state. -/
def displaySetSeparator (sep : Char) (d : DisplayPath) (c : Char) :
    Except DisplayPath DisplayPath :=
  if c ≠ sep ∧ ¬ d.path.contains c then Except.ok { d with sepChar := c }
  else Except.error d

/-- The loop body of DisplayPath::fmt in the substituted-separator case:
the first component, then each further component preceded by the
substitute separator. -/
def fmtJoin (c : Char) : List (List Char) → List Char
  | [] => []
  | x :: xs => x ++ (xs.map (fun y => c :: y)).flatten

/-- pure.rs DisplayPath::fmt: with a substituted separator the components
are written joined by it; otherwise the text is written as is. -/
def displayFmt (sep : Char) (d : DisplayPath) : List Char :=
  if d.sepChar ≠ sep then fmtJoin d.sepChar (pureComponents sep d.path)
  else d.path

/-- Scalar values of a list of characters; input helper for concrete
paths. -/
def chars (l : List Char) : List Nat :=
  l.map Char.toNat

/-! Spec-side definitions, used to state the claims in the spec's own
vocabulary and compared against the source-derived functions above. -/

/-- Number of UTF-16 code units needed to encode scalar c. -/
def utf16UnitLen (c : Nat) : Nat :=
  if c < 0x10000 then 1 else 2

/-- Is the scalar one of the characters trim_full_path strips (dot or
space)? -/
def isTrimChar (c : Nat) : Bool :=
  c == 0x2E || c == 0x20

/-- The maximal trailing run of dots and spaces of a string. -/
def trailingTrimRun (cs : List Nat) : List Nat :=
  (cs.reverse.takeWhile isTrimChar).reverse

/-- The string with its maximal trailing run of dots and spaces removed. -/
def trimBody (cs : List Nat) : List Nat :=
  (cs.reverse.dropWhile isTrimChar).reverse

/-- Did the Result-like value take the Ok variant? -/
def exceptIsOk : Except α β → Bool
  | Except.ok _ => true
  | Except.error _ => false

/-- Decidable equality for Except values with decidable components. -/
instance [DecidableEq ε] [DecidableEq α] : DecidableEq (Except ε α) := fun x y =>
  match x, y with
  | Except.ok a, Except.ok b =>
    if h : a = b then Decidable.isTrue (by rw [h]) else Decidable.isFalse (by simp [h])
  | Except.error a, Except.error b =>
    if h : a = b then Decidable.isTrue (by rw [h]) else Decidable.isFalse (by simp [h])
  | Except.ok _, Except.error _ => Decidable.isFalse (by simp)
  | Except.error _, Except.ok _ => Decidable.isFalse (by simp)

/-! Validation of the embedding against the repository's own test suite
(crates/testing/tests/paths.rs, path_test_manual). -/

example :
    winClean (chars ['C', ':', '\\', 'p', 'a', '\\', 't', 'o', '\\', 'f', '\\', '.', '.', '\\', '.', '.'])
      = some (chars ['C', ':', '\\', 'p', 'a']) := by decide

example :
    winClean (chars ['C', ':', '/', 'p', 'a', '/', 't', 'o', '/', 'f'])
      = some (chars ['C', ':', '\\', 'p', 'a', '\\', 't', 'o', '\\', 'f']) := by decide

example :
    winClean (chars ['C', ':', '\\', 'a', '\\', 'f', '.', '.', ' ', '.', '.', '.'])
      = some (chars ['C', ':', '\\', 'a', '\\', 'f']) := by decide

example :
    winClean (chars ['/', '/', '?', '/', 'C', ':', '\\', 'f', '.', '.'])
      = some (chars ['\\', '\\', '?', '\\', 'C', ':', '\\', 'f']) := by decide

example :
    winClean (chars ['\\', '\\', '?', '\\', 'C', ':', '\\', 'f', '.', '.'])
      = some (chars ['\\', '\\', '?', '\\', 'C', ':', '\\', 'f', '.', '.']) := by decide

example :
    winClean (chars ['/', '/', 's', 'v', '/', 's', 'h'])
      = some (chars ['\\', '\\', 's', 'v', '\\', 's', 'h']) := by decide

/-! Basic lemmas about the UTF-8 model. -/

theorem utf8Width_pos (c : Nat) : 1 ≤ utf8Width c := by
  unfold utf8Width; split_ifs <;> omega

theorem utf8Len_cons (c : Nat) (l : List Nat) :
    utf8Len (c :: l) = utf8Width c + utf8Len l := by
  simp [utf8Len]

theorem utf8Len_append (a b : List Nat) :
    utf8Len (a ++ b) = utf8Len a + utf8Len b := by
  simp [utf8Len]

theorem utf8Encode_cons (c : Nat) (l : List Nat) :
    utf8Encode (c :: l) = utf8EncodeChar c ++ utf8Encode l := by
  simp [utf8Encode]

theorem firstUtf8Byte_ascii (c : Nat) (h : c < 0x80) : firstUtf8Byte c = c := by
  unfold firstUtf8Byte utf8EncodeChar
  rw [if_pos h]
  rfl

theorem firstUtf8Byte_two (c : Nat) (h1 : 0x80 ≤ c) (h2 : c < 0x800) :
    firstUtf8Byte c = 0xC0 + c / 64 := by
  unfold firstUtf8Byte utf8EncodeChar
  rw [if_neg (by omega), if_pos h2]
  rfl

theorem firstUtf8Byte_three (c : Nat) (h1 : 0x800 ≤ c) (h2 : c < 0x10000) :
    firstUtf8Byte c = 0xE0 + c / 4096 := by
  unfold firstUtf8Byte utf8EncodeChar
  rw [if_neg (by omega), if_neg (by omega), if_pos h2]
  rfl

theorem firstUtf8Byte_four (c : Nat) (h1 : 0x10000 ≤ c) :
    firstUtf8Byte c = 0xF0 + c / 262144 := by
  unfold firstUtf8Byte utf8EncodeChar
  rw [if_neg (by omega), if_neg (by omega), if_neg (by omega)]
  rfl

/-- The leading byte of the encoding of a BMP scalar reports the exact
width of the encoding. -/
theorem utf8LenByte_first_eq_width (c : Nat) (h : c < 0x10000) :
    utf8LenByte (firstUtf8Byte c) = utf8Width c := by
  rcases Nat.lt_or_ge c 0x80 with h1 | h1
  · rw [firstUtf8Byte_ascii c h1]
    unfold utf8LenByte utf8Width
    rw [if_pos h1, if_pos h1]
  · rcases Nat.lt_or_ge c 0x800 with h2 | h2
    · rw [firstUtf8Byte_two c h1 h2]
      unfold utf8LenByte utf8Width
      rw [if_neg (by omega), if_neg (by omega), if_pos (by omega),
        if_neg (by omega), if_pos h2]
    · rw [firstUtf8Byte_three c h2 h]
      unfold utf8LenByte utf8Width
      rw [if_neg (by omega), if_neg (by omega), if_neg (by omega), if_pos (by omega),
        if_neg (by omega), if_neg (by omega), if_pos h]

/-- The leading byte of the encoding of a supplementary-plane scalar
claims at least four bytes. -/
theorem four_le_utf8LenByte_first (c : Nat) (h : 0x10000 ≤ c) :
    4 ≤ utf8LenByte (firstUtf8Byte c) := by
  rw [firstUtf8Byte_four c h]
  unfold utf8LenByte
  split_ifs <;> omega

/-- A scalar whose leading encoded byte claims one byte is ASCII. -/
theorem ascii_of_utf8LenByte_first_eq_one (c : Nat)
    (h : utf8LenByte (firstUtf8Byte c) = 1) : c < 0x80 := by
  by_contra hn
  rcases Nat.lt_or_ge c 0x10000 with h1 | h1
  · rw [utf8LenByte_first_eq_width c h1] at h
    unfold utf8Width at h
    split_ifs at h <;> omega
  · have := four_le_utf8LenByte_first c h1
    omega

theorem splitAtByteLen_zero (cs : List Nat) : splitAtByteLen cs 0 = some ([], cs) := by
  cases cs <;> rfl

theorem splitAtByteLen_cons_pos (c : Nat) (rest : List Nat) (n : Nat) (hn : 0 < n) :
    splitAtByteLen (c :: rest) n =
      if utf8Width c ≤ n then
        (splitAtByteLen rest (n - utf8Width c)).map (fun p => (c :: p.1, p.2))
      else none := by
  match n, hn with
  | n + 1, _ => rfl

/-- Splitting at the byte length of a take is exact. -/
theorem splitAtByteLen_take (cs : List Nat) (k : Nat) (hk : k ≤ cs.length) :
    splitAtByteLen cs (utf8Len (cs.take k)) = some (cs.take k, cs.drop k) := by
  induction cs generalizing k with
  | nil => simp [utf8Len, splitAtByteLen_zero]
  | cons c rest ih =>
    match k with
    | 0 => simpa [utf8Len] using splitAtByteLen_zero (c :: rest)
    | k + 1 =>
      have hk' : k ≤ rest.length := by simpa using hk
      have hw := utf8Width_pos c
      rw [List.take_succ_cons, utf8Len_cons,
        splitAtByteLen_cons_pos _ _ _ (by omega), if_pos (by omega)]
      have heq : utf8Width c + utf8Len (List.take k rest) - utf8Width c
          = utf8Len (List.take k rest) := by omega
      rw [heq, ih k hk']
      simp

/-- Complete characterization of the offsets where splitAtByteLen
succeeds: exactly the byte lengths of scalar-list prefixes. -/
theorem splitAtByteLen_isSome_iff (cs : List Nat) (n : Nat) :
    (splitAtByteLen cs n).isSome ↔ ∃ k, k ≤ cs.length ∧ n = utf8Len (cs.take k) := by
  induction cs generalizing n with
  | nil =>
    match n with
    | 0 =>
      simp only [splitAtByteLen_zero, Option.isSome_some, true_iff]
      exact ⟨0, by simp, by simp [utf8Len]⟩
    | n + 1 =>
      constructor
      · intro h
        simp [splitAtByteLen] at h
      · rintro ⟨k, -, hn⟩
        simp [utf8Len] at hn
  | cons c rest ih =>
    match n with
    | 0 =>
      simp only [splitAtByteLen_zero, Option.isSome_some, true_iff]
      exact ⟨0, by simp, by simp [utf8Len]⟩
    | n + 1 =>
      rw [splitAtByteLen_cons_pos _ _ _ (by omega)]
      constructor
      · intro h
        split_ifs at h with h1
        · cases hsp : splitAtByteLen rest (n + 1 - utf8Width c) with
          | none => rw [hsp] at h; simp at h
          | some p =>
            obtain ⟨k, hk, hn⟩ := (ih (n + 1 - utf8Width c)).mp (by rw [hsp]; rfl)
            refine ⟨k + 1, by simpa using hk, ?_⟩
            rw [List.take_succ_cons, utf8Len_cons]
            omega
        · simp at h
      · rintro ⟨k, hk, hn⟩
        match k with
        | 0 => simp [utf8Len] at hn
        | k + 1 =>
          rw [List.take_succ_cons, utf8Len_cons] at hn
          have hk' : k ≤ rest.length := by simpa using hk
          have hw := utf8Width_pos c
          rw [if_pos (by omega), show n + 1 - utf8Width c = utf8Len (List.take k rest) by omega,
            splitAtByteLen_take rest k hk']
          rfl

/-- Byte lengths of prefixes grow with the prefix. -/
theorem utf8Len_take_mono (cs : List Nat) {k1 k2 : Nat} (h : k1 ≤ k2) :
    utf8Len (cs.take k1) ≤ utf8Len (cs.take k2) := by
  rw [show k2 = k1 + (k2 - k1) by omega, List.take_add, utf8Len_append]
  omega

/-- C1: the claim asserts clean(clean(p)) = clean(p) for every UTF-8
string p, presupposing (with spec section 4.2) that clean is total.  It
is not: on the one-character path consisting of U+00E9 (a two-byte
character), clean reaches trim_full_path, whose rfind returns the byte
index of the start of that character and whose split_at(pos + 1) then
falls inside the character's two-byte encoding and panics.  The code
contradicts the spec's totality contract, so the claim fails at this
input through a code defect, not a wrong claim. -/
theorem clean_panics_on_two_byte_char : winClean (chars ['é']) = none := by decide

/-- C4: counterexample.  For the input string consisting of backslash,
backslash, server, backslash, share, backslash, x, the computed full
prefix stops at the byte index of the separator that follows the share
(str_unc_prefix_len returns pos + n + 1, the index OF the second
separator), so the prefix excludes that separator, contradicting the
claim that the prefix covers it. -/
theorem unc_prefix_excludes_trailing_sep :
    parsedParts (chars ['\\', '\\', 's', 'e', 'r', 'v', 'e', 'r', '\\', 's', 'h', 'a', 'r', 'e', '\\', 'x'])
      = some (chars ['\\', '\\', 's', 'e', 'r', 'v', 'e', 'r', '\\', 's', 'h', 'a', 'r', 'e'],
              chars ['\\', 'x'])
    ∧ chars ['\\', '\\', 's', 'e', 'r', 'v', 'e', 'r', '\\', 's', 'h', 'a', 'r', 'e']
      ≠ chars ['\\', '\\', 's', 'e', 'r', 'v', 'e', 'r', '\\', 's', 'h', 'a', 'r', 'e', '\\'] := by
  decide

/-- C4 amended: parsing that string yields kind Unc, and the full prefix
covers the leading double separator plus server and share but stops
before the separator that follows the share; the remainder, beginning
with that separator, is the subpath. -/
theorem unc_prefix_amended :
    winFromStr (chars ['\\', '\\', 's', 'e', 'r', 'v', 'e', 'r', '\\', 's', 'h', 'a', 'r', 'e', '\\', 'x'])
      = WinPathKind.Unc
    ∧ parsedParts (chars ['\\', '\\', 's', 'e', 'r', 'v', 'e', 'r', '\\', 's', 'h', 'a', 'r', 'e', '\\', 'x'])
      = some (chars ['\\', '\\', 's', 'e', 'r', 'v', 'e', 'r', '\\', 's', 'h', 'a', 'r', 'e'],
              chars ['\\', 'x']) := by
  decide

/-- C5: counterexample.  U+1F60D is non-ASCII and needs two UTF-16 code
units; the claim says a following lone colon makes the string
DriveRelative, but from_str tests utf8_len of the first byte (4 for a
supplementary-plane scalar) before ever looking at the colon and
returns CurrentDirectoryRelative. -/
theorem astral_drive_counterexample :
    0x80 ≤ 0x1F60D
    ∧ utf16UnitLen 0x1F60D = 2
    ∧ winFromStr [0x1F60D, 0x3A] = WinPathKind.CurrentDirectoryRelative
    ∧ WinPathKind.CurrentDirectoryRelative ≠ WinPathKind.DriveRelative 0x1F60D := by
  decide

/-- C6: unresolved dot-dot components of a relative path are re-emitted
in front of the cleaned path instead of being dropped: the claim's own
example, plus an input leaving two unresolved dot-dots. -/
theorem clean_reemits_leading_dotdot :
    winClean (chars ['p', 'a', 't', 'h', '\\', '.', '.', '\\', '.', '.', '\\', 't', 'o', '\\', 'f', 'i', 'l', 'e'])
      = some (chars ['.', '.', '\\', 't', 'o', '\\', 'f', 'i', 'l', 'e'])
    ∧ winClean (chars ['a', '\\', '.', '.', '\\', '.', '.', '\\', '.', '.', '\\', 't', 'o'])
      = some (chars ['.', '.', '\\', '.', '.', '\\', 't', 'o'])
    ∧ winClean (chars ['a', '\\', '.', '.', '\\', '.', '.'])
      = some (chars ['.', '.']) := by
  decide

/-- C7: counterexample.  On a string that consists entirely of dots the
claim demands that the whole trailing run be removed (the run is neither
a bare dot nor a bare dot-dot), yet trim_full_path's rfind finds no
character outside the run and the function returns the input unchanged. -/
theorem trim_keeps_all_dots_string :
    trimFullPath [0x2E, 0x2E, 0x2E] = some [0x2E, 0x2E, 0x2E]
    ∧ ([0x2E, 0x2E, 0x2E] : List Nat) ≠ [] := by
  decide

/-- The verbatim test succeeds exactly on strings whose first four
scalars are backslash, backslash, question mark, backslash. -/
theorem isVerbatimList_iff (cs : List Nat) :
    isVerbatimList cs = true ↔ cs.take 4 = [0x5C, 0x5C, 0x3F, 0x5C] := by
  rcases cs with _ | ⟨a, _ | ⟨b, _ | ⟨c, _ | ⟨d, t⟩⟩⟩⟩ <;>
    simp [isVerbatimList, and_assoc]

/-- Helper: a string that fails the verbatim test is never classified
Verbatim; every other arm of from_str returns a different constructor. -/
theorem winFromStr_ne_verbatim (cs : List Nat) (hv : isVerbatimList cs = false) :
    winFromStr cs ≠ WinPathKind.Verbatim := by
  rcases cs with _ | ⟨c0, _ | ⟨r1, _ | ⟨s, t2⟩⟩⟩ <;>
    simp only [winFromStr, hv, Bool.false_eq_true, if_false] <;>
    first
      | (split_ifs <;> simp)
      | simp

/-- C3: from_str classifies a string Verbatim exactly when its first four
bytes are backslash, backslash, question mark, backslash (all ASCII, so
at scalar level the first four scalars); in particular the separator
mixed string beginning slash slash question slash is classified Device,
never Verbatim. -/
theorem verbatim_iff_exact_bytes :
    (∀ cs : List Nat,
      winFromStr cs = WinPathKind.Verbatim ↔ cs.take 4 = [0x5C, 0x5C, 0x3F, 0x5C])
    ∧ winFromStr (chars ['/', '/', '?', '/', 'C']) = WinPathKind.Device
    ∧ WinPathKind.Device ≠ WinPathKind.Verbatim := by
  refine ⟨fun cs => ?_, by decide, by decide⟩
  constructor
  · intro h
    by_cases hv : isVerbatimList cs = true
    · exact (isVerbatimList_iff cs).mp hv
    · exact absurd h (winFromStr_ne_verbatim cs (by simpa using hv))
  · intro h
    rcases cs with _ | ⟨a, _ | ⟨b, _ | ⟨c, _ | ⟨d, t⟩⟩⟩⟩
    · simp at h
    · simp at h
    · simp at h
    · simp at h
    · have hv := (isVerbatimList_iff (a :: b :: c :: d :: t)).mpr h
      simp [winFromStr, hv]

/-- C9: counterexample.  DisplayPath::separator also fails when the
requested substitute equals the path's own separator even though that
character does not occur in the path text: here the path is the single
letter a with separator slash, and requesting slash fails. -/
theorem display_separator_rejects_own_separator :
    displaySetSeparator '/' (displayNew '/' ['a']) '/'
      = Except.error (displayNew '/' ['a'])
    ∧ '/' ∉ (['a'] : List Char) := by
  decide

/-- Per-component unfolding of the safety test into the claim's positive
conjuncts. -/
theorem isComponentWin32Safe_iff (c : List Nat) :
    isComponentWin32Safe c = true ↔
      c ≠ [] ∧ c.getLast? ≠ some 0x2E ∧ c.getLast? ≠ some 0x20
        ∧ 0x2F ∉ c ∧ 0 ∉ c := by
  unfold isComponentWin32Safe
  simp [not_or, List.isEmpty_iff, and_assoc]

/-- C8: is_win32_safe holds exactly when, after stripping at most one
trailing backslash, every backslash-separated component is non-empty,
does not end with a dot or a space, and contains neither a slash nor a
null character. -/
theorem win32_safe_iff (cs : List Nat) :
    isWin32Safe cs = true ↔
      ∀ c ∈ splitOnP (fun b => b == 0x5C)
          (if cs.getLast? == some 0x5C then cs.dropLast else cs),
        c ≠ [] ∧ c.getLast? ≠ some 0x2E ∧ c.getLast? ≠ some 0x20
          ∧ 0x2F ∉ c ∧ 0 ∉ c := by
  unfold isWin32Safe
  simp only [List.all_eq_true, isComponentWin32Safe_iff]

theorem rfindIdx_cons (p : α → Bool) (a : α) (l : List α) :
    rfindIdx p (a :: l) =
      match rfindIdx p l with
      | some i => some (i + 1)
      | none => if p a then some 0 else none := rfl

/-- rfindIdx over an append prefers the second list. -/
theorem rfindIdx_append (p : α → Bool) (xs ys : List α) :
    rfindIdx p (xs ++ ys) =
      match rfindIdx p ys with
      | some i => some (xs.length + i)
      | none => rfindIdx p xs := by
  induction xs with
  | nil => cases h : rfindIdx p ys <;> simp [h, rfindIdx]
  | cons x xs ih =>
    rw [List.cons_append, rfindIdx_cons, ih, rfindIdx_cons]
    cases h : rfindIdx p ys <;> cases h2 : rfindIdx p xs <;>
      simp <;> omega

/-- rfindIdx finds nothing exactly when nothing satisfies the test. -/
theorem rfindIdx_eq_none_iff (p : α → Bool) (l : List α) :
    rfindIdx p l = none ↔ ∀ x ∈ l, p x = false := by
  induction l with
  | nil => simp [rfindIdx]
  | cons a l ih =>
    rw [rfindIdx_cons]
    cases h : rfindIdx p l with
    | some i =>
      show some (i + 1) = none ↔ _
      constructor
      · intro hc
        cases hc
      · intro hall
        have hnone : rfindIdx p l = none :=
          ih.mpr fun x hx => hall x (List.mem_cons_of_mem a hx)
        rw [hnone] at h
        cases h
    | none =>
      show (if p a then some 0 else none) = none ↔ _
      have hl := ih.mp h
      constructor
      · intro hc
        by_cases hpa : p a = true
        · rw [if_pos hpa] at hc
          cases hc
        · intro x hx
          rcases List.mem_cons.mp hx with rfl | hx2
          · simp only [Bool.not_eq_true] at hpa
            exact hpa
          · exact hl x hx2
      · intro hall
        rw [if_neg (by simp [hall a (List.mem_cons_self a l)])]

/-- C10: on a buffer not ending in the separator, pushing a
separator-free component and popping restores the buffer exactly and pop
reports a removal; popping the empty buffer reports nothing removed and
leaves it empty. -/
theorem push_pop_roundtrip (sep : Char) (b c : List Char)
    (hb : b.getLast? ≠ some sep) (hc : sep ∉ c) (hne : ¬(b = [] ∧ c = [])) :
    purePop sep (purePush sep b c) = (true, b)
    ∧ purePop sep ([] : List Char) = (false, []) := by
  have hrc : rfindIdx (fun x => x == sep) c = none := by
    rw [rfindIdx_eq_none_iff]
    intro x hx
    simp only [beq_eq_false_iff_ne, ne_eq]
    exact fun hxe => hc (hxe ▸ hx)
  refine ⟨?_, by simp [purePop, pureParent]⟩
  by_cases hb0 : b = []
  · subst hb0
    have hc0 : c ≠ [] := fun h => hne ⟨rfl, h⟩
    unfold purePush
    rw [if_neg (by simp)]
    simp only [List.nil_append]
    unfold purePop pureParent
    rw [if_neg hc0, hrc]
  · unfold purePush
    rw [if_pos (by simp [hb0, hb])]
    have happ : (b ++ [sep]) ++ c = b ++ ([sep] ++ c) := by simp
    have hfind : rfindIdx (fun x => x == sep) ((b ++ [sep]) ++ c) = some b.length := by
      rw [happ, rfindIdx_append]
      rw [show rfindIdx (fun x => x == sep) ([sep] ++ c) = some 0 by
        rw [rfindIdx_append]
        rw [hrc]
        simp [rfindIdx]]
      simp
    unfold purePop pureParent
    rw [if_neg (by simp [hb0]), hfind]
    simp only [Option.some.injEq, Prod.mk.injEq, true_and]
    rw [show ((b ++ [sep]) ++ c).take b.length = (b ++ ([sep] ++ c)).take b.length by rw [happ]]
    exact List.take_left b ([sep] ++ c)

/-- The fmt loop joins components with the substitute separator exactly
as List.intercalate with the one-character separator does. -/
theorem fmtJoin_eq_intercalate (c : Char) (l : List (List Char)) :
    fmtJoin c l = List.intercalate [c] l := by
  cases l with
  | nil => rfl
  | cons x xs =>
    induction xs generalizing x with
    | nil => simp [fmtJoin, List.intercalate]
    | cons y ys ih =>
      unfold fmtJoin
      rw [show List.intercalate [c] (x :: y :: ys)
          = x ++ [c] ++ List.intercalate [c] (y :: ys) by
        simp [List.intercalate, List.intersperse]]
      rw [← ih y]
      simp [fmtJoin]

/-- C9 amended: DisplayPath::separator succeeds exactly when the
requested substitute differs from the path's own separator and does not
occur in the path text; on success the display renders the components
joined by the substitute. -/
theorem display_separator_amended (sep : Char) (p : List Char) (c : Char) :
    (exceptIsOk (displaySetSeparator sep (displayNew sep p) c) = true
      ↔ (c ≠ sep ∧ c ∉ p))
    ∧ (∀ d, displaySetSeparator sep (displayNew sep p) c = Except.ok d →
        displayFmt sep d = List.intercalate [c] (pureComponents sep p)) := by
  constructor
  · unfold displaySetSeparator displayNew exceptIsOk
    split_ifs with h
    · simpa using h
    · simp only [Bool.false_eq_true, false_iff]
      intro hcon
      exact h (by simpa using hcon)
  · intro d hd
    unfold displaySetSeparator at hd
    split_ifs at hd with h
    · have hdval : d = { path := p, sepChar := c } := by
        cases hd
        rfl
      subst hdval
      unfold displayFmt
      rw [if_pos h.1]
      exact fmtJoin_eq_intercalate c (pureComponents sep p)

/-- C9 amended, witness: substituting a dot for the slash separator of
the path a slash b succeeds and displays a dot b. -/
theorem display_separator_amended_witness :
    exceptIsOk (displaySetSeparator '/' (displayNew '/' ['a', '/', 'b']) '.') = true
    ∧ displayFmt '/' { path := ['a', '/', 'b'], sepChar := '.' }
      = List.intercalate ['.'] (pureComponents '/' ['a', '/', 'b']) := by
  have h := display_separator_amended '/' ['a', '/', 'b'] '.'
  exact ⟨h.1.mpr (by decide), h.2 _ (by decide)⟩

/-- C10 witness: pushing the single letter c onto the buffer ab with
separator slash and popping restores ab. -/
theorem push_pop_roundtrip_witness :
    purePop '/' (purePush '/' ['a', 'b'] ['c']) = (true, ['a', 'b'])
    ∧ purePop '/' ([] : List Char) = (false, []) :=
  push_pop_roundtrip '/' ['a', 'b'] ['c'] (by decide) (by decide) (by decide)

theorem utf8LenByte_two_range (b : Nat) (h1 : 0xC0 ≤ b) (h2 : b < 0xE0) :
    utf8LenByte b = 2 := by
  unfold utf8LenByte
  split_ifs <;> omega

theorem utf8LenByte_three_range (b : Nat) (h1 : 0xE0 ≤ b) (h2 : b < 0xF0) :
    utf8LenByte b = 3 := by
  unfold utf8LenByte
  split_ifs <;> omega

/-- Decoding the first scalar of the encoding of a non-ASCII BMP scalar
(followed by anything) gives back the scalar: the UTF-16 drive code
equals the scalar value. -/
theorem bmpUtf8ToUtf16_roundtrip (c : Nat) (rest : List Nat)
    (h1 : 0x80 ≤ c) (h2 : c < 0x10000) :
    bmpUtf8ToUtf16 (utf8EncodeChar c ++ rest) = c := by
  rcases Nat.lt_or_ge c 0x800 with hc | hc
  · rw [show utf8EncodeChar c = [0xC0 + c / 64, 0x80 + c % 64] by
      unfold utf8EncodeChar
      rw [if_neg (by omega), if_pos hc]]
    unfold bmpUtf8ToUtf16
    simp only [List.cons_append, List.nil_append, List.headD_cons,
      List.drop_succ_cons, List.drop_zero]
    rw [utf8LenByte_two_range (0xC0 + c / 64) (by omega) (by omega)]
    rw [if_neg (by omega), if_pos (by omega)]
    omega
  · rw [show utf8EncodeChar c = [0xE0 + c / 4096, 0x80 + c / 64 % 64, 0x80 + c % 64] by
      unfold utf8EncodeChar
      rw [if_neg (by omega), if_neg (by omega), if_pos h2]]
    unfold bmpUtf8ToUtf16
    simp only [List.cons_append, List.nil_append, List.headD_cons,
      List.drop_succ_cons, List.drop_zero]
    rw [utf8LenByte_three_range (0xE0 + c / 4096) (by omega) (by omega)]
    rw [if_pos (by omega)]
    omega

/-- C5 amended: for a first scalar that is non-ASCII but fits in a
single UTF-16 code unit (a BMP scalar; the source sends scalars needing
two units to CurrentDirectoryRelative before inspecting the colon),
classification inspects the bytes after the scalar: colon then separator
gives Drive with the scalar itself as UTF-16 drive code and prefix
length the scalar's UTF-8 width plus two; colon without a following
separator gives DriveRelative with prefix length width plus one;
anything else gives CurrentDirectoryRelative with empty prefix. -/
theorem nonascii_bmp_classification (c0 : Nat) (rest : List Nat)
    (h1 : 0x80 ≤ c0) (h2 : c0 < 0x10000) :
    winFromStrWithLen (c0 :: rest) =
      match rest with
      | r1 :: s :: _ =>
        if r1 = 0x3A then
          if isSep s then (WinPathKind.Drive c0, utf8Width c0 + 2)
          else (WinPathKind.DriveRelative c0, utf8Width c0 + 1)
        else (WinPathKind.CurrentDirectoryRelative, 0)
      | [r1] =>
        if r1 = 0x3A then (WinPathKind.DriveRelative c0, utf8Width c0 + 1)
        else (WinPathKind.CurrentDirectoryRelative, 0)
      | [] => (WinPathKind.CurrentDirectoryRelative, 0) := by
  have hv : isVerbatimList (c0 :: rest) = false := by
    rcases rest with _ | ⟨a, _ | ⟨b, _ | ⟨d, t⟩⟩⟩ <;> (simp [isVerbatimList]; try omega)
  have hn : utf8LenByte (firstUtf8Byte c0) = utf8Width c0 :=
    utf8LenByte_first_eq_width c0 h2
  have hw : utf8Width c0 = 2 ∨ utf8Width c0 = 3 := by
    unfold utf8Width
    split_ifs <;> omega
  have hbmp : ∀ tail : List Nat, bmpUtf8ToUtf16 (utf8Encode (c0 :: tail)) = c0 := by
    intro tail
    rw [utf8Encode_cons]
    exact bmpUtf8ToUtf16_roundtrip c0 (utf8Encode tail) h1 h2
  unfold winFromStrWithLen
  simp only [winFromStr, hv, Bool.false_eq_true, if_false, hn, List.headD_cons]
  rw [if_neg (by omega), if_pos (by omega)]
  rcases rest with _ | ⟨r1, _ | ⟨s, t⟩⟩
  · simp [WinPathKind.utf16Len]
  · by_cases hr : r1 = 0x3A
    · subst hr
      simp [hbmp, WinPathKind.utf16Len, hn]
      omega
    · simp only [show (r1 == 0x3A) = false by simpa using hr, Bool.false_eq_true, if_false]
      rw [if_neg (by simpa using hr)]
      simp [WinPathKind.utf16Len]
  · by_cases hr : r1 = 0x3A
    · subst hr
      by_cases hs : isSep s = true
      · simp [hbmp, hs, WinPathKind.utf16Len, hn]
        omega
      · simp only [show (isSep s) = false by simpa using hs] at *
        simp [hbmp, hs, WinPathKind.utf16Len, hn]
        omega
    · simp only [show (r1 == 0x3A) = false by simpa using hr, Bool.false_eq_true, if_false]
      rw [if_neg (by simpa using hr)]
      simp [WinPathKind.utf16Len]

/-- C5 amended, witness: the two-byte scalar U+00E9 followed by colon
and backslash is a Drive with code U+00E9 and a four-byte prefix. -/
theorem nonascii_bmp_classification_witness :
    winFromStrWithLen [0xE9, 0x3A, 0x5C] = (WinPathKind.Drive 0xE9, 4) := by
  have h := nonascii_bmp_classification 0xE9 [0x3A, 0x5C] (by decide) (by decide)
  rw [h]
  decide

theorem trimBody_nil : trimBody ([] : List Nat) = [] := rfl

theorem trimBody_cons (a : Nat) (t : List Nat) :
    trimBody (a :: t) =
      if trimBody t = [] then (if isTrimChar a then [] else [a])
      else a :: trimBody t := by
  unfold trimBody
  rw [List.reverse_cons, List.dropWhile_append]
  by_cases h : (List.dropWhile isTrimChar t.reverse).isEmpty = true
  · rw [if_pos h]
    have ht : t.reverse.dropWhile isTrimChar = [] := by simpa using h
    rw [if_pos (by simp [ht])]
    by_cases ha : isTrimChar a <;> simp [List.dropWhile_cons, ha]
  · rw [if_neg h]
    have ht : t.reverse.dropWhile isTrimChar ≠ [] := by simpa using h
    rw [if_neg (by simpa using ht)]
    simp

/-- The rfind of trim_full_path returns exactly the element index of the
last character outside the trailing run of dots and spaces. -/
theorem rfind_eq_trimBody (cs : List Nat) :
    rfindIdx (fun c => !isTrimChar c) cs =
      if trimBody cs = [] then none else some ((trimBody cs).length - 1) := by
  induction cs with
  | nil => simp [rfindIdx, trimBody_nil]
  | cons a t ih =>
    rw [rfindIdx_cons, ih, trimBody_cons]
    by_cases h : trimBody t = []
    · rw [if_pos h, if_pos h]
      by_cases ha : isTrimChar a
      · rw [if_pos ha]
        simp [ha]
      · rw [if_neg ha]
        simp [show isTrimChar a = false by simpa using ha]
    · rw [if_neg h, if_neg h]
      have hlen : 1 ≤ (trimBody t).length := List.length_pos.mpr h
      simp only [List.length_cons]
      congr 1
      omega

theorem trimBody_append_trailingRun (cs : List Nat) :
    trimBody cs ++ trailingTrimRun cs = cs := by
  unfold trimBody trailingTrimRun
  rw [← List.reverse_append, List.takeWhile_append_dropWhile, List.reverse_reverse]

theorem trailingTrimRun_mem (cs : List Nat) :
    ∀ x ∈ trailingTrimRun cs, isTrimChar x = true := by
  intro x hx
  unfold trailingTrimRun at hx
  exact List.mem_takeWhile_imp (List.mem_reverse.mp hx)

theorem dropWhile_head_not (q : α → Bool) (l : List α) :
    ∀ x xs, l.dropWhile q = x :: xs → q x = false := by
  induction l with
  | nil =>
    intro x xs h
    cases h
  | cons a t ih =>
    intro x xs h
    rw [List.dropWhile_cons] at h
    split_ifs at h with ha
    · exact ih x xs h
    · injection h with h1 h2
      subst h1
      simpa using ha

theorem trimBody_getLast_not_trim (cs : List Nat) (h : trimBody cs ≠ []) :
    isTrimChar ((trimBody cs).getLastD 0) = false := by
  rw [List.getLastD_eq_getLast?]
  unfold trimBody at *
  rw [List.getLast?_reverse]
  cases hd : cs.reverse.dropWhile isTrimChar with
  | nil => exact absurd (by simp [hd]) h
  | cons y ys =>
    simpa using dropWhile_head_not isTrimChar cs.reverse y ys hd

/-- C7 amended: trim_full_path returns the input unchanged when the
whole string consists of dots and spaces; otherwise, writing the string
as body plus maximal trailing run of dots and spaces, it panics when the
last character of the body is more than one byte wide (the byte-index
slip), returns the input unchanged when the run is exactly a dot or a
dot-dot and the body ends with a separator, and otherwise removes the
run. -/
theorem trim_full_path_amended (cs : List Nat) :
    trimFullPath cs =
      if trimBody cs = [] then some cs
      else if utf8Width ((trimBody cs).getLastD 0) ≠ 1 then none
      else if (trailingTrimRun cs = [0x2E] ∨ trailingTrimRun cs = [0x2E, 0x2E])
              ∧ endsWithSep (trimBody cs) = true then some cs
      else some (trimBody cs) := by
  have hpred : (fun c : Nat => !(c == 0x2E) && !(c == 0x20)) = fun c => !isTrimChar c := by
    funext c
    simp [isTrimChar]
  unfold trimFullPath
  rw [hpred, rfind_eq_trimBody]
  by_cases hb : trimBody cs = []
  · rw [if_pos hb, if_pos hb]
    simp [trimAtIdx]
  · rw [if_neg hb, if_neg hb]
    simp only [trimAtIdx]
    have hcsr : trimBody cs ++ trailingTrimRun cs = cs := trimBody_append_trailingRun cs
    have hlen : 1 ≤ (trimBody cs).length := List.length_pos.mpr hb
    have hctrim := trimBody_getLast_not_trim cs hb
    have hbsplit : (trimBody cs).dropLast ++ [(trimBody cs).getLastD 0] = trimBody cs := by
      rw [List.getLastD_eq_getLast?, List.getLast?_eq_getLast (trimBody cs) hb]
      exact List.dropLast_append_getLast hb
    obtain ⟨b, hbdef⟩ : ∃ b, trimBody cs = b := ⟨_, rfl⟩
    obtain ⟨r, hrdef⟩ : ∃ r, trailingTrimRun cs = r := ⟨_, rfl⟩
    rw [hbdef] at hb hcsr hlen hctrim hbsplit
    rw [hrdef] at hcsr
    rw [hbdef, hrdef, ← hcsr]
    have hlast : (b ++ r).take (b.length - 1) = b.dropLast := by
      rw [List.take_append_of_le_length (by omega), ← List.dropLast_eq_take]
    have htakeb : (b ++ r).take b.length = b := List.take_left b r
    have hdropb : (b ++ r).drop b.length = r := List.drop_left b r
    have hlenb : utf8Len b = utf8Len b.dropLast + utf8Width (b.getLastD 0) := by
      conv_lhs => rw [← hbsplit]
      rw [utf8Len_append, utf8Len_cons]
      simp [utf8Len]
    by_cases hw : utf8Width (b.getLastD 0) = 1
    · have hsplit : splitAtByteLen (b ++ r) (utf8Len ((b ++ r).take (b.length - 1)) + 1)
          = some (b, r) := by
        rw [hlast, show utf8Len b.dropLast + 1 = utf8Len ((b ++ r).take b.length) by
          rw [htakeb]; omega]
        rw [splitAtByteLen_take (b ++ r) b.length (by simp), htakeb, hdropb]
      rw [hsplit]
      simp only [trimAfterSplit]
      rw [if_neg (show ¬ utf8Width (b.getLastD 0) ≠ 1 by omega)]
      by_cases hcond : (r = [0x2E] ∨ r = [0x2E, 0x2E]) ∧ endsWithSep b = true
      · rw [if_pos (show (r = [0x2E] ∨ r = [0x2E, 0x2E]) ∧ (b = [] ∨ endsWithSep b = true)
            from ⟨hcond.1, Or.inr hcond.2⟩), if_pos hcond]
      · rw [if_neg (show ¬ ((r = [0x2E] ∨ r = [0x2E, 0x2E]) ∧ (b = [] ∨ endsWithSep b = true)) by
          rintro ⟨h1, h2 | h2⟩
          · exact hb h2
          · exact hcond ⟨h1, h2⟩), if_neg hcond]
    · have hwge : 2 ≤ utf8Width (b.getLastD 0) := by
        have := utf8Width_pos (b.getLastD 0)
        omega
      have hnone : splitAtByteLen (b ++ r) (utf8Len ((b ++ r).take (b.length - 1)) + 1)
          = none := by
        rw [← Option.not_isSome_iff_eq_none, splitAtByteLen_isSome_iff]
        rintro ⟨k, hk, hkeq⟩
        rcases le_or_lt k (b.length - 1) with hkle | hkgt
        · have hmono := utf8Len_take_mono (b ++ r) hkle
          omega
        · have hk2 : b.length ≤ k := by omega
          have hmono := utf8Len_take_mono (b ++ r) hk2
          rw [htakeb] at hmono
          rw [hlast] at hkeq
          omega
      rw [hnone]
      simp only [trimAfterSplit]
      rw [if_pos hw]

theorem utf8LenByte_pos (b : Nat) : 1 ≤ utf8LenByte b := by
  unfold utf8LenByte
  split_ifs <;> omega

theorem utf8Width_ascii (c : Nat) (h : c < 0x80) : utf8Width c = 1 := by
  unfold utf8Width
  rw [if_pos h]

theorem utf8LenByte_ascii (c : Nat) (h : c < 0x80) : utf8LenByte c = 1 := by
  unfold utf8LenByte
  rw [if_pos h]

theorem isSep_lt (c : Nat) (h : isSep c = true) : c < 0x80 := by
  unfold isSep at h
  rcases Bool.or_eq_true_iff.mp h with h1 | h1 <;> (simp at h1; omega)

/-- The full prefix length of a path classified Unc. -/
theorem parsedPrefixLen_unc (cs : List Nat) (h : winFromStr cs = .Unc) :
    parsedPrefixLen cs = 2 + strUncPrefixLen (cs.drop 2) := by
  unfold parsedPrefixLen winFromStrWithLen
  rw [h]
  rfl

/-- The full prefix length of a path classified Drive. -/
theorem parsedPrefixLen_drive (cs : List Nat) (d : Nat)
    (h : winFromStr cs = .Drive d) :
    parsedPrefixLen cs = 2 + utf8LenByte (firstUtf8Byte (cs.headD 0)) := by
  unfold parsedPrefixLen winFromStrWithLen
  rw [h]
  rfl

/-- The full prefix length of a path classified DriveRelative. -/
theorem parsedPrefixLen_driveRel (cs : List Nat) (d : Nat)
    (h : winFromStr cs = .DriveRelative d) :
    parsedPrefixLen cs = 1 + utf8LenByte (firstUtf8Byte (cs.headD 0)) := by
  unfold parsedPrefixLen winFromStrWithLen
  rw [h]
  rfl

/-- The full prefix length of a path classified Verbatim. -/
theorem parsedPrefixLen_verbatim (cs : List Nat) (h : winFromStr cs = .Verbatim) :
    parsedPrefixLen cs = 4 := by
  unfold parsedPrefixLen winFromStrWithLen
  rw [h]
  rfl

/-- The full prefix length of a path classified Device. -/
theorem parsedPrefixLen_device (cs : List Nat) (h : winFromStr cs = .Device) :
    parsedPrefixLen cs = 4 := by
  unfold parsedPrefixLen winFromStrWithLen
  rw [h]
  rfl

/-- The full prefix length of a path classified RootRelative. -/
theorem parsedPrefixLen_root (cs : List Nat) (h : winFromStr cs = .RootRelative) :
    parsedPrefixLen cs = 1 := by
  unfold parsedPrefixLen winFromStrWithLen
  rw [h]
  rfl

/-- The full prefix length of a path classified relative to the current
directory. -/
theorem parsedPrefixLen_cdr (cs : List Nat)
    (h : winFromStr cs = .CurrentDirectoryRelative) :
    parsedPrefixLen cs = 0 := by
  unfold parsedPrefixLen winFromStrWithLen
  rw [h]
  rfl

/-- The secondary UNC scan always stops on an element boundary. -/
theorem strUncPrefixLen_boundary (t : List Nat) :
    ∃ m, m ≤ t.length ∧ strUncPrefixLen t = utf8Len (t.take m) := by
  unfold strUncPrefixLen
  cases h1 : t.findIdx? (fun c => isSep c) with
  | none => exact ⟨t.length, Nat.le_refl _, by rw [List.take_length, strUncFirst]⟩
  | some i =>
    simp only [strUncFirst]
    cases h2 : (t.drop (i + 1)).findIdx? (fun c => isSep c) with
    | none => exact ⟨t.length, Nat.le_refl _, by rw [List.take_length, strUncSecond]⟩
    | some j =>
      have hi := (List.findIdx?_eq_some_iff_findIdx_eq.mp h1).1
      have hj := (List.findIdx?_eq_some_iff_findIdx_eq.mp h2).1
      rw [List.length_drop] at hj
      exact ⟨i + 1 + j, by omega, by rw [strUncSecond]⟩

/-- The computed full prefix length always lies on a character boundary:
it is the byte length of a prefix of the scalar list. -/
theorem parsedPrefixLen_boundary (cs : List Nat) :
    ∃ k, k ≤ cs.length ∧ parsedPrefixLen cs = utf8Len (cs.take k) := by
  rcases cs with _ | ⟨c0, rest⟩
  · exact ⟨0, by simp, by decide⟩
  by_cases hv : isVerbatimList (c0 :: rest) = true
  · have hkind : winFromStr (c0 :: rest) = .Verbatim := by
      simp [winFromStr, hv]
    rw [parsedPrefixLen_verbatim _ hkind]
    have h4 := (isVerbatimList_iff _).mp hv
    refine ⟨4, ?_, ?_⟩
    · have := congrArg List.length h4
      simp [List.length_take] at this
      simp [List.length_cons]
      omega
    · rw [h4]
      decide
  · have hv' : isVerbatimList (c0 :: rest) = false := by simpa using hv
    by_cases h4 : 4 ≤ utf8LenByte (firstUtf8Byte c0)
    · have hkind : winFromStr (c0 :: rest) = .CurrentDirectoryRelative := by
        simp only [winFromStr, hv', Bool.false_eq_true, if_false]
        rw [if_pos h4]
      rw [parsedPrefixLen_cdr _ hkind]
      exact ⟨0, by simp, by simp [utf8Len]⟩
    · by_cases h2 : 2 ≤ utf8LenByte (firstUtf8Byte c0)
      · -- the first scalar is non-ASCII BMP: its width equals the claimed length
        have hwidth : utf8Width c0 = utf8LenByte (firstUtf8Byte c0) := by
          have hc0lt : c0 < 0x10000 := by
            by_contra hge
            have := four_le_utf8LenByte_first c0 (by omega)
            omega
          rw [utf8LenByte_first_eq_width c0 hc0lt]
        rcases rest with _ | ⟨r1, rtail⟩
        · have hkind : winFromStr [c0] = .CurrentDirectoryRelative := by
            simp only [winFromStr, hv', Bool.false_eq_true, if_false]
            rw [if_neg h4, if_pos h2]
          rw [parsedPrefixLen_cdr _ hkind]
          exact ⟨0, by simp, by simp [utf8Len]⟩
        · by_cases hr : (r1 == 0x3A) = true
          · have hr' : r1 = 0x3A := by simpa using hr
            rcases rtail with _ | ⟨s, t2⟩
            · have hkind : winFromStr [c0, r1]
                  = .DriveRelative (bmpUtf8ToUtf16 (utf8Encode [c0, r1])) := by
                simp only [winFromStr, hv', Bool.false_eq_true, if_false]
                rw [if_neg h4, if_pos h2, if_pos hr]
              rw [parsedPrefixLen_driveRel _ _ hkind]
              refine ⟨2, by simp, ?_⟩
              simp [utf8Len, utf8Width_ascii r1 (by omega), List.headD]
              omega
            · by_cases hs : isSep s = true
              · have hkind : winFromStr (c0 :: r1 :: s :: t2)
                    = .Drive (bmpUtf8ToUtf16 (utf8Encode (c0 :: r1 :: s :: t2))) := by
                  simp only [winFromStr, hv', Bool.false_eq_true, if_false]
                  rw [if_neg h4, if_pos h2, if_pos hr, if_pos hs]
                rw [parsedPrefixLen_drive _ _ hkind]
                refine ⟨3, by simp, ?_⟩
                simp [utf8Len, utf8Width_ascii r1 (by omega),
                  utf8Width_ascii s (isSep_lt s hs), List.headD]
                omega
              · have hkind : winFromStr (c0 :: r1 :: s :: t2)
                    = .DriveRelative (bmpUtf8ToUtf16 (utf8Encode (c0 :: r1 :: s :: t2))) := by
                  simp only [winFromStr, hv', Bool.false_eq_true, if_false]
                  rw [if_neg h4, if_pos h2, if_pos hr, if_neg hs]
                rw [parsedPrefixLen_driveRel _ _ hkind]
                refine ⟨2, by simp, ?_⟩
                simp [utf8Len, utf8Width_ascii r1 (by omega), List.headD]
                omega
          · have hkind : winFromStr (c0 :: r1 :: rtail) = .CurrentDirectoryRelative := by
              simp only [winFromStr, hv', Bool.false_eq_true, if_false]
              rw [if_neg h4, if_pos h2, if_neg hr]
            rw [parsedPrefixLen_cdr _ hkind]
            exact ⟨0, by simp, by simp [utf8Len]⟩
      · -- ASCII first byte
        have hn1 : utf8LenByte (firstUtf8Byte c0) = 1 := by
          have := utf8LenByte_pos (firstUtf8Byte c0)
          omega
        have hasc : c0 < 0x80 := ascii_of_utf8LenByte_first_eq_one c0 hn1
        by_cases hdev : matchDevice (c0 :: rest) = true
        · have hkind : winFromStr (c0 :: rest) = .Device := by
            simp only [winFromStr, hv', Bool.false_eq_true, if_false]
            rw [if_neg h4, if_neg h2, if_pos hdev]
          rw [parsedPrefixLen_device _ hkind]
          rcases rest with _ | ⟨b, _ | ⟨c, _ | ⟨d, t⟩⟩⟩ <;>
            simp [matchDevice, isSep] at hdev
          obtain ⟨⟨⟨hs1, hsb⟩, hcd⟩, hsd⟩ := hdev
          refine ⟨4, by simp, ?_⟩
          simp [utf8Len, utf8Width_ascii c0 hasc,
            utf8Width_ascii b (by rcases hsb with h | h <;> omega),
            utf8Width_ascii d (by rcases hsd with h | h <;> omega),
            utf8Width_ascii c (by rcases hcd with h | h <;> omega)]
        · by_cases hunc : matchTwoSeps (c0 :: rest) = true
          · have hkind : winFromStr (c0 :: rest) = .Unc := by
              simp only [winFromStr, hv', Bool.false_eq_true, if_false]
              rw [if_neg h4, if_neg h2, if_neg hdev, if_pos hunc]
            rw [parsedPrefixLen_unc _ hkind]
            rcases rest with _ | ⟨s2, t⟩
            · simp [matchTwoSeps] at hunc
            · obtain ⟨hs1, hs2⟩ : (c0 = 0x5C ∨ c0 = 0x2F) ∧ (s2 = 0x5C ∨ s2 = 0x2F) := by
                simpa [matchTwoSeps, isSep] using hunc
              obtain ⟨m, hm, hmeq⟩ := strUncPrefixLen_boundary t
              refine ⟨m + 2, by simp [List.length_cons]; omega, ?_⟩
              rw [show (c0 :: s2 :: t).drop 2 = t from rfl, hmeq,
                show (c0 :: s2 :: t).take (m + 2) = c0 :: s2 :: t.take m from rfl]
              rw [utf8Len_cons, utf8Len_cons, utf8Width_ascii c0 hasc,
                utf8Width_ascii s2 (by rcases hs2 with h | h <;> omega)]
              omega
          · by_cases hroot : matchOneSep (c0 :: rest) = true
            · have hkind : winFromStr (c0 :: rest) = .RootRelative := by
                simp only [winFromStr, hv', Bool.false_eq_true, if_false]
                rw [if_neg h4, if_neg h2, if_neg hdev, if_neg hunc, if_pos hroot]
              rw [parsedPrefixLen_root _ hkind]
              refine ⟨1, by simp, ?_⟩
              simp [utf8Len, utf8Width_ascii c0 hasc]
            · by_cases habs : matchDriveAbs (c0 :: rest) = true
              · have hkind : winFromStr (c0 :: rest) = .Drive c0 := by
                  simp only [winFromStr, hv', Bool.false_eq_true, if_false]
                  rw [if_neg h4, if_neg h2, if_neg hdev, if_neg hunc, if_neg hroot,
                    if_pos habs]
                rw [parsedPrefixLen_drive _ _ hkind]
                rcases rest with _ | ⟨r1, _ | ⟨s, t⟩⟩ <;>
                  simp [matchDriveAbs, isSep] at habs
                obtain ⟨hr1, hss⟩ := habs
                subst hr1
                refine ⟨3, by simp, ?_⟩
                rw [show (c0 :: 0x3A :: s :: t).headD 0 = c0 from rfl,
                  firstUtf8Byte_ascii c0 hasc, utf8LenByte_ascii c0 hasc]
                simp [utf8Len, utf8Width_ascii c0 hasc,
                  utf8Width_ascii 0x3A (by omega),
                  utf8Width_ascii s (by rcases hss with h | h <;> omega)]
              · by_cases hrel : matchDriveRel (c0 :: rest) = true
                · have hkind : winFromStr (c0 :: rest) = .DriveRelative c0 := by
                    simp only [winFromStr, hv', Bool.false_eq_true, if_false]
                    rw [if_neg h4, if_neg h2, if_neg hdev, if_neg hunc, if_neg hroot,
                      if_neg habs, if_pos hrel]
                  rw [parsedPrefixLen_driveRel _ _ hkind]
                  rcases rest with _ | ⟨r1, t⟩ <;> simp [matchDriveRel] at hrel
                  subst hrel
                  refine ⟨2, by simp, ?_⟩
                  rw [show (c0 :: 0x3A :: t).headD 0 = c0 from rfl,
                    firstUtf8Byte_ascii c0 hasc, utf8LenByte_ascii c0 hasc]
                  simp [utf8Len, utf8Width_ascii c0 hasc,
                    utf8Width_ascii 0x3A (by omega)]
                · have hkind : winFromStr (c0 :: rest) = .CurrentDirectoryRelative := by
                    simp only [winFromStr, hv', Bool.false_eq_true, if_false]
                    rw [if_neg h4, if_neg h2, if_neg hdev, if_neg hunc, if_neg hroot,
                      if_neg habs, if_neg hrel]
                  rw [parsedPrefixLen_cdr _ hkind]
                  exact ⟨0, by simp, by simp [utf8Len]⟩

/-- C2: classification plus prefix splitting is total and exact: the
computed prefix byte length is at most the byte length of the input and
lies on a character boundary (it is the byte length of a scalar-list
prefix), parts() succeeds (split_at cannot panic), and the byte lengths
of prefix and subpath sum to the input's byte length. -/
theorem parsed_utf8_path_total (cs : List Nat) :
    ∃ k, k ≤ cs.length
      ∧ parsedPrefixLen cs = utf8Len (cs.take k)
      ∧ parsedPrefixLen cs ≤ utf8Len cs
      ∧ parsedParts cs = some (cs.take k, cs.drop k)
      ∧ utf8Len (cs.take k) + utf8Len (cs.drop k) = utf8Len cs := by
  obtain ⟨k, hk, heq⟩ := parsedPrefixLen_boundary cs
  have hsum : utf8Len (cs.take k) + utf8Len (cs.drop k) = utf8Len cs := by
    rw [← utf8Len_append, List.take_append_drop]
  refine ⟨k, hk, heq, by omega, ?_, hsum⟩
  unfold parsedParts
  rw [heq, splitAtByteLen_take cs k hk]

end Omnipath
